import Mathlib

/-!
Verification of the navigation next-page resolution algorithm of
`next_page_resolver.js` (functions `findNexts`, `findNextsHelper`,
`getNexts`, and the CLI identifier formatter), against the design
specification of the repository.

The in-memory navigation tree loaded from YAML is modelled by `Node`:
a JS string becomes `Node.leaf`, a JS array becomes `Node.seq`, and a
JS object (ordered mapping from track name to child) becomes
`Node.group` over an association list with unique keys (JS object keys
are unique).  The three-valued search sentinel of the source
(`false` / `true` / array of paths) becomes `Found.notFound` /
`Found.exhausted` / `Found.resolved`.
-/

/-- A navigation node: a page name (JS string), an ordered sequence
(JS array), or a named branch point (JS object of tracks). -/
inductive Node where
  | leaf (name : String)
  | seq (children : List Node)
  | group (tracks : List (String × Node))
deriving Repr

/-- The three-way search sentinel used by `findNextsHelper` in the
source: JS `false` (not found), JS `true` (found but exhausted /
dead end), or a JS array of resolved paths. -/
inductive Found where
  | notFound
  | exhausted
  | resolved (ps : List (List String))
deriving Repr, DecidableEq

/-- `Array.isArray(r) ? r : []` — the paths carried by a resolved
sentinel, and the empty list for the boolean sentinels. -/
def resolvedPaths : Found → List (List String)
  | .resolved ps => ps
  | _ => []

mutual

/-- `getNexts(xs, directions)` of the source: the first-descendant
computation.  A string yields the single path `directions ++ [name]`;
an array descends into its first element only (empty array signals the
dead-end marker, JS `true`); an object concatenates the resolved
results of all its tracks in declaration order, each with the track
name appended to the breadcrumb (`true` markers are filtered out), and
signals the dead-end marker when no track resolves. -/
def getNexts : Node → List String → Found
  | .leaf s, dirs => .resolved [dirs ++ [s]]
  | .seq [], _ => .exhausted
  | .seq (x :: _), dirs => getNexts x dirs
  | .group ts, dirs =>
      let ps := getNextsTracks ts dirs
      if ps = [] then .exhausted else .resolved ps

/-- `Object.entries(xs).flatMap(([k,v]) => getNexts(v, [...directions, k])).filter(Array.isArray)`
of the source: the concatenation, in declaration order, of the
resolved paths of each track. -/
def getNextsTracks : List (String × Node) → List String → List (List String)
  | [], _ => []
  | (k, v) :: rest, dirs =>
      resolvedPaths (getNexts v (dirs ++ [k])) ++ getNextsTracks rest dirs

end

mutual

/-- `findNextsHelper(xs, path, directions)` of the source.  A falsy
node (`!xs`, i.e. the empty-string leaf) and an empty path report
not-found; an array is scanned by the sibling loop; a leaf matches a
one-component path by name (reporting the JS `true` sentinel, i.e.
found-but-exhausted); an object with at least two path components
left descends into the track named by the head component (a missing
key is JS `undefined`, caught by `!xs` as not-found). -/
def findNextsHelper : Node → List String → List String → Found
  | .leaf s, path, _ =>
      if s = "" then .notFound
      else
        match path with
        | [p] => if s = p then .exhausted else .notFound
        | _ => .notFound
  | .seq _, [], _ => .notFound
  | .seq l, p :: ps, dirs => seqLoop l (p :: ps) dirs .notFound
  | .group _, [], _ => .notFound
  | .group _, [_], _ => .notFound
  | .group ts, p :: p2 :: ps, dirs => groupLookup ts p (p2 :: ps) (dirs ++ [p])

/-- The `for (const x of xs)` loop of `findNextsHelper` with its
`found` accumulator: while `found` is JS `false` the elements are
searched; once it is JS `true` the following elements are probed with
`getNexts` until one resolves; a resolved array is returned as is. -/
def seqLoop : List Node → List String → List String → Found → Found
  | [], _, _, found => found
  | _ :: _, _, _, .resolved ps => .resolved ps
  | x :: rest, path, dirs, .exhausted => seqLoop rest path dirs (getNexts x dirs)
  | x :: rest, path, dirs, .notFound => seqLoop rest path dirs (findNextsHelper x path dirs)

/-- `findNextsHelper(xs[path[0]], path.slice(1), [...directions, path[0]])`
over the association-list model of a JS object: the entry whose key
equals the head path component is descended into; when no entry
matches, the JS lookup yields `undefined` and the recursive call
reports not-found. -/
def groupLookup : List (String × Node) → String → List String → List String → Found
  | [], _, _, _ => .notFound
  | (k, v) :: rest, p, ps, dirs =>
      if k = p then findNextsHelper v ps dirs else groupLookup rest p ps dirs

end

/-- `findNexts(xs, path)` of the source: empty path goes straight to
the first-descendant computation, otherwise the search runs; a
non-array sentinel collapses to the empty list. -/
def findNexts (xs : Node) (path : List String) : List (List String) :=
  resolvedPaths (if path = [] then getNexts xs [] else findNextsHelper xs path [])

/-- `resolveNext(tree, currentPath)` of the specification: the
navigation tree is the root JS array handed to `findNexts`. -/
def resolveNext (tree : List Node) (path : List String) : List (List String) :=
  findNexts (.seq tree) path

/-- The `basic` test structure of the source's unit tests:
the sequence config.js, a src track with index.js and utils.js,
then readme.md. -/
def basicTree : List Node :=
  [.leaf "config.js",
   .group [("src", .seq [.leaf "index.js", .leaf "utils.js"])],
   .leaf "readme.md"]

/-- First-match association-list lookup, the model of the JS object
indexing `xs[path[0]]` (JS object keys are unique, so first-match
agrees with the object semantics). -/
def lookupTrack : List (String × Node) → String → Option Node
  | [], _ => none
  | (k, v) :: rest, p => if k = p then some v else lookupTrack rest p

/-- The probing phase of the sibling loop of `findNextsHelper`: once
the search has reported found-but-exhausted, each following sibling is
probed with `getNexts` until one resolves; when none does, the level
itself reports the dead-end marker. -/
def afterScan : List Node → List String → Found
  | [], _ => .exhausted
  | x :: rest, dirs =>
      match getNexts x dirs with
      | .resolved ps => .resolved ps
      | _ => afterScan rest dirs

/-- One enclosing-sequence level of a search position: the siblings
following the descended element, the path searched at that level, and
the breadcrumb of that level. -/
abbrev Frame := List Node × List String × List String

/-- What one enclosing sequence level does to the sentinel reported
from inside its descended element: a resolved result passes through,
a dead end triggers the probing phase over the following siblings,
and not-found resumes the search over the following siblings. -/
def frameApply (fr : Frame) : Found → Found
  | .resolved ps => .resolved ps
  | .exhausted => afterScan fr.1 fr.2.2
  | .notFound => seqLoop fr.1 fr.2.1 fr.2.2 .notFound

/-- Applying the enclosing levels innermost first. -/
def applyFrames (frs : List Frame) (r : Found) : Found :=
  frs.foldl (fun acc fr => frameApply fr acc) r

/-- Backtracking through enclosing levels, innermost first: the first
level whose following siblings yield a resolved first-descendant set
wins; when no level has one, the dead-end marker reaches the root. -/
def firstResolving : List Frame → Found
  | [] => .exhausted
  | fr :: rest =>
      match afterScan fr.1 fr.2.2 with
      | .resolved ps => .resolved ps
      | _ => firstResolving rest

/-- `Descends t path dirs frs inner ipath idirs` formalises "the path
identifies a position inside `inner`": the search for `path` in `t`
walks down to the node `inner` with remaining path `ipath` and
accumulated breadcrumb `idirs`, because at every traversed sequence
all elements before the descended one report not-found, and at every
traversed GroupSet the head path component names the descended track.
`frs` records the traversed sequence levels, innermost first. -/
inductive Descends :
    Node → List String → List String → List Frame → Node → List String → List String → Prop where
  | refl (t : Node) (path dirs : List String) : Descends t path dirs [] t path dirs
  | seq (pre : List Node) (x : Node) (post : List Node) (path dirs : List String)
      (frs : List Frame) (inner : Node) (ipath idirs : List String)
      (hpath : path ≠ [])
      (hpre : ∀ y ∈ pre, findNextsHelper y path dirs = .notFound)
      (h : Descends x path dirs frs inner ipath idirs) :
      Descends (.seq (pre ++ x :: post)) path dirs
        (frs ++ [(post, path, dirs)]) inner ipath idirs
  | group (ts : List (String × Node)) (p p2 : String) (ps dirs : List String) (v : Node)
      (frs : List Frame) (inner : Node) (ipath idirs : List String)
      (hlk : lookupTrack ts p = some v)
      (h : Descends v (p2 :: ps) (dirs ++ [p]) frs inner ipath idirs) :
      Descends (.group ts) (p :: p2 :: ps) dirs frs inner ipath idirs

mutual

/-- Whether a path names a leaf somewhere in a node: a one-component
path names a matching leaf, and a longer path enters the named track
of a GroupSet; inside a sequence any element may match. -/
def matchesLeaf : Node → List String → Bool
  | _, [] => false
  | .leaf s, [p] => s == p
  | .leaf _, _ :: _ :: _ => false
  | .seq l, p :: ps => matchesAny l (p :: ps)
  | .group _, [_] => false
  | .group ts, p :: p2 :: ps => matchesTrack ts p (p2 :: ps)

/-- Whether a path names a leaf in some element of a sequence. -/
def matchesAny : List Node → List String → Bool
  | [], _ => false
  | x :: rest, path => matchesLeaf x path || matchesAny rest path

/-- Whether a path names a leaf below the track with the given name. -/
def matchesTrack : List (String × Node) → String → List String → Bool
  | [], _, _ => false
  | (k, v) :: rest, p, ps => if k = p then matchesLeaf v ps else matchesTrack rest p ps

end

mutual

/-- The helper `firstDescendants(node, breadcrumb)` exactly as worded
in section 4 of the specification, written independently of the code
so that `getNexts` can be compared against it: a Leaf yields the
single path `breadcrumb + [name]`; a sequence descends into its first
element only, an empty sequence signalling the EMPTY marker (`none`);
a GroupSet concatenates the non-EMPTY results of all its tracks, each
breadcrumb extended with the track name, and signals EMPTY when every
track does. -/
def specFirstDescendants : Node → List String → Option (List (List String))
  | .leaf n, bread => some [bread ++ [n]]
  | .seq [], _ => none
  | .seq (x :: _), bread => specFirstDescendants x bread
  | .group ts, bread =>
      let rs := specFDTracks ts bread
      if rs = [] then none else some rs

/-- The concatenation over all tracks used by the GroupSet case of
`specFirstDescendants`, in declaration order. -/
def specFDTracks : List (String × Node) → List String → List (List String)
  | [], _ => []
  | (k, v) :: rest, bread =>
      (specFirstDescendants v (bread ++ [k])).getD [] ++ specFDTracks rest bread

end

mutual

/-- Whether a node contains any leaf at all. -/
def hasLeaf : Node → Bool
  | .leaf _ => true
  | .seq l => hasLeafList l
  | .group ts => hasLeafTracks ts

/-- Whether a sequence contains any leaf. -/
def hasLeafList : List Node → Bool
  | [] => false
  | x :: r => hasLeaf x || hasLeafList r

/-- Whether some track of a GroupSet contains any leaf. -/
def hasLeafTracks : List (String × Node) → Bool
  | [] => false
  | (_, v) :: r => hasLeaf v || hasLeafTracks r

end

/-- Whether a node is a sequence with zero children (an empty track
value). -/
def isEmptySeq : Node → Bool
  | .seq [] => true
  | _ => false

mutual

/-- A copy of a node with every empty track (a track whose children
sequence has zero elements) removed from every GroupSet. -/
def pruneEmpty : Node → Node
  | .leaf s => .leaf s
  | .seq l => .seq (pruneList l)
  | .group ts => .group (pruneTracks ts)

/-- `pruneEmpty` mapped over a sequence. -/
def pruneList : List Node → List Node
  | [] => []
  | x :: r => pruneEmpty x :: pruneList r

/-- The tracks of a GroupSet with the empty ones dropped and the rest
pruned recursively. -/
def pruneTracks : List (String × Node) → List (String × Node)
  | [] => []
  | (k, v) :: r =>
      if isEmptySeq v then pruneTracks r else (k, pruneEmpty v) :: pruneTracks r

end

/-- Whether no entry of an association list has the given key. -/
def keyAbsent (p : String) : List (String × Node) → Bool
  | [] => true
  | (k, _) :: rest => !(k == p) && keyAbsent p rest

/-- Whether the keys of an association list are pairwise distinct, as
the keys of a JS object always are. -/
def nodupKeys : List (String × Node) → Bool
  | [] => true
  | (k, _) :: rest => keyAbsent k rest && nodupKeys rest

mutual

/-- The well-formedness invariant inherited from the JS representation:
every GroupSet of the tree has pairwise-distinct track names. -/
def tracksWF : Node → Bool
  | .leaf _ => true
  | .seq l => tracksWFList l
  | .group ts => nodupKeys ts && tracksWFTracks ts

/-- `tracksWF` over all elements of a sequence. -/
def tracksWFList : List Node → Bool
  | [] => true
  | x :: r => tracksWF x && tracksWFList r

/-- `tracksWF` over all track values of a GroupSet. -/
def tracksWFTracks : List (String × Node) → Bool
  | [] => true
  | (_, v) :: r => tracksWF v && tracksWFTracks r

end

mutual

/-- The nesting depth of a node: how many node levels a traversal can
descend through. -/
def ndepth : Node → Nat
  | .leaf _ => 1
  | .seq l => ldepth l + 1
  | .group ts => tdepth ts + 1

/-- The largest nesting depth of the elements of a sequence. -/
def ldepth : List Node → Nat
  | [] => 0
  | x :: r => max (ndepth x) (ldepth r)

/-- The largest nesting depth of the track values of a GroupSet. -/
def tdepth : List (String × Node) → Nat
  | [] => 0
  | (_, v) :: r => max (ndepth v) (tdepth r)

end

mutual

/-- `getNexts` with an explicit recursion-depth budget: one unit of
fuel is consumed each time the computation enters a node, and `none`
reports that the budget was exhausted.  The sibling iterations of a
sequence or of the tracks of a GroupSet consume no fuel, exactly as
the source's loops add no stack frame. -/
def getNextsF : Nat → Node → List String → Option Found
  | 0, _, _ => none
  | _ + 1, .leaf s, dirs => some (.resolved [dirs ++ [s]])
  | _ + 1, .seq [], _ => some .exhausted
  | fuel + 1, .seq (x :: _), dirs => getNextsF fuel x dirs
  | fuel + 1, .group ts, dirs =>
      match getNextsTracksF fuel ts dirs with
      | none => none
      | some ps => some (if ps = [] then .exhausted else .resolved ps)

/-- The fuelled counterpart of `getNextsTracks`. -/
def getNextsTracksF : Nat → List (String × Node) → List String → Option (List (List String))
  | _, [], _ => some []
  | fuel, (k, v) :: rest, dirs =>
      match getNextsF fuel v (dirs ++ [k]), getNextsTracksF fuel rest dirs with
      | some r, some rs => some (resolvedPaths r ++ rs)
      | _, _ => none

end

mutual

/-- `findNextsHelper` with an explicit recursion-depth budget,
consuming one unit of fuel per entered node, `none` reporting an
exhausted budget. -/
def findNextsHelperF : Nat → Node → List String → List String → Option Found
  | 0, _, _, _ => none
  | _ + 1, .leaf s, path, _ =>
      some (if s = "" then .notFound
        else
          match path with
          | [p] => if s = p then .exhausted else .notFound
          | _ => .notFound)
  | _ + 1, .seq _, [], _ => some .notFound
  | fuel + 1, .seq l, p :: ps, dirs => seqLoopF fuel l (p :: ps) dirs .notFound
  | _ + 1, .group _, [], _ => some .notFound
  | _ + 1, .group _, [_], _ => some .notFound
  | fuel + 1, .group ts, p :: p2 :: ps, dirs => groupLookupF fuel ts p (p2 :: ps) (dirs ++ [p])

/-- The fuelled counterpart of `seqLoop`. -/
def seqLoopF : Nat → List Node → List String → List String → Found → Option Found
  | _, [], _, _, found => some found
  | _, _ :: _, _, _, .resolved ps => some (.resolved ps)
  | fuel, x :: rest, path, dirs, .exhausted =>
      match getNextsF fuel x dirs with
      | none => none
      | some f => seqLoopF fuel rest path dirs f
  | fuel, x :: rest, path, dirs, .notFound =>
      match findNextsHelperF fuel x path dirs with
      | none => none
      | some f => seqLoopF fuel rest path dirs f

/-- The fuelled counterpart of `groupLookup`. -/
def groupLookupF : Nat → List (String × Node) → String → List String → List String → Option Found
  | _, [], _, _, _ => some .notFound
  | fuel, (k, v) :: rest, p, ps, dirs =>
      if k = p then findNextsHelperF fuel v ps dirs else groupLookupF fuel rest p ps dirs

end

/-- The fuelled counterpart of `findNexts`. -/
def findNextsF (fuel : Nat) (xs : Node) (path : List String) : Option (List (List String)) :=
  (if path = [] then getNextsF fuel xs [] else findNextsHelperF fuel xs path []).map resolvedPaths

/-- One identifier of the CLI substitution object (the formatter of
lines 28 to 35 of the source): `components.pop()` strips the trailing
leaf name, an empty remaining breadcrumb is replaced by the configured
shared/default track name, and the identifier is the configured
prefix, a dash, and the breadcrumb components joined by underscores. -/
def formatId (idPre sh : String) (components : List String) : String :=
  let bc := components.dropLast
  let bc2 := if bc = [] then [sh] else bc
  idPre ++ "-" ++ String.intercalate "_" bc2

/-- The identifiers of the substitution object emitted by the CLI
boundary (lines 27 to 38 of the source): one identifier per resolved
path, except that a sole resolved path gets the bare prefix. -/
def formatIds (idPre sh : String) (nexts : List (List String)) : List String :=
  let ids := nexts.map (formatId idPre sh)
  if nexts.length = 1 then [idPre] else ids

/-- The `emptyDirs` test structure of the source's unit tests. -/
def emptyDirsTree : List Node :=
  [.leaf "file1.js", .group [("empty", .seq [])], .leaf "file2.js"]

/-- A GroupSet with a single track that itself starts with a nested
two-track GroupSet. -/
def claim5Group : List (String × Node) :=
  [("a", .seq [.group [("b", .seq [.leaf "x.js"]), ("c", .seq [.leaf "y.js"])]])]

/-- A tree in which the element following the leaf `p.js` is the
single-track GroupSet `claim5Group`. -/
def claim5Tree : List Node := [.leaf "p.js", .group claim5Group]

/-- A tree with no leaves at all. -/
def noLeafTree : List Node := [.group [("empty", .seq [])]]

/-- The `tripleDir` test structure of the source's unit tests: three
GroupSets that share the track name `same`. -/
def tripleSameTree : List Node :=
  [.group [("same", .seq [.leaf "a.js"])],
   .leaf "middle.js",
   .group [("same", .seq [.leaf "b.js", .leaf "c.js"])],
   .leaf "end.js",
   .group [("same", .seq [.leaf "d.js"])]]

/-- A track list with a dead (empty) track between two live ones. -/
def claim5WTracks : List (String × Node) :=
  [("a", .seq [.leaf "x"]), ("e", .seq []), ("b", .seq [.leaf "y"])]

/-- `getNexts` never reports not-found: the JS function returns only
`true` or an array. -/
theorem getNexts_ne : ∀ (x : Node) (dirs : List String), getNexts x dirs ≠ Found.notFound
  | .leaf _, dirs => by simp [getNexts]
  | .seq [], dirs => by simp [getNexts]
  | .seq (x :: r), dirs => by simpa [getNexts] using getNexts_ne x dirs
  | .group ts, dirs => by
      simp only [getNexts]
      split <;> simp

/-- The probing phase never reports not-found either. -/
theorem afterScan_ne : ∀ (l : List Node) (dirs : List String), afterScan l dirs ≠ Found.notFound
  | [], dirs => by simp [afterScan]
  | x :: rest, dirs => by
      rw [afterScan]
      cases getNexts x dirs with
      | resolved ps => simp
      | notFound => exact afterScan_ne rest dirs
      | exhausted => exact afterScan_ne rest dirs

/-- A resolved sentinel passes unchanged through the sibling loop. -/
theorem seqLoop_resolved (l : List Node) (path dirs : List String) (ps : List (List String)) :
    seqLoop l path dirs (.resolved ps) = .resolved ps := by
  cases l <;> rw [seqLoop]

/-- Entering the sibling loop in the exhausted state is exactly the
probing phase. -/
theorem seqLoop_exhausted : ∀ (l : List Node) (path dirs : List String),
    seqLoop l path dirs .exhausted = afterScan l dirs
  | [], path, dirs => by rw [seqLoop, afterScan]
  | x :: rest, path, dirs => by
      rw [seqLoop, afterScan]
      cases h : getNexts x dirs with
      | notFound => exact absurd h (getNexts_ne x dirs)
      | exhausted => exact seqLoop_exhausted rest path dirs
      | resolved ps => exact seqLoop_resolved rest path dirs ps

/-- Elements that report not-found are skipped by the searching phase
of the sibling loop. -/
theorem seqLoop_skip : ∀ (pre l : List Node) (path dirs : List String),
    (∀ y ∈ pre, findNextsHelper y path dirs = .notFound) →
    seqLoop (pre ++ l) path dirs .notFound = seqLoop l path dirs .notFound
  | [], l, path, dirs, _ => rfl
  | y :: pre, l, path, dirs, hpre => by
      rw [List.cons_append, seqLoop, hpre y (by simp)]
      exact seqLoop_skip pre l path dirs (fun z hz => hpre z (by simp [hz]))

/-- The sibling loop started in any state is one frame application. -/
theorem seqLoop_eq_frameApply (l : List Node) (path dirs : List String) (r : Found) :
    seqLoop l path dirs r = frameApply (l, path, dirs) r := by
  cases r with
  | resolved ps => rw [seqLoop_resolved]; rfl
  | exhausted => rw [seqLoop_exhausted]; rfl
  | notFound => rfl

/-- The fused group scan agrees with association-list lookup. -/
theorem groupLookup_eq_lookup : ∀ (ts : List (String × Node)) (p : String) (ps dirs : List String),
    groupLookup ts p ps dirs =
      match lookupTrack ts p with
      | some v => findNextsHelper v ps dirs
      | none => .notFound
  | [], p, ps, dirs => by rw [groupLookup, lookupTrack]
  | (k, v) :: rest, p, ps, dirs => by
      rw [groupLookup, lookupTrack]
      by_cases hk : k = p
      · rw [if_pos hk, if_pos hk]
      · rw [if_neg hk, if_neg hk]
        exact groupLookup_eq_lookup rest p ps dirs

/-- A key that occurs in no entry makes the group scan report
not-found. -/
theorem groupLookup_absent : ∀ (ts : List (String × Node)) (p : String) (ps dirs : List String),
    keyAbsent p ts = true → groupLookup ts p ps dirs = .notFound
  | [], p, ps, dirs, _ => rfl
  | (k, v) :: rest, p, ps, dirs, h => by
      rw [keyAbsent] at h
      simp only [Bool.and_eq_true, Bool.not_eq_true'] at h
      rw [groupLookup, if_neg (by simpa using h.1)]
      exact groupLookup_absent rest p ps dirs h.2

/-- Splitting the last frame off `applyFrames`. -/
theorem applyFrames_append (frs : List Frame) (fr : Frame) (r : Found) :
    applyFrames (frs ++ [fr]) r = frameApply fr (applyFrames frs r) := by
  unfold applyFrames
  rw [List.foldl_append]
  rfl

/-- A resolved sentinel passes unchanged through every enclosing
level. -/
theorem applyFrames_resolved : ∀ (frs : List Frame) (ps : List (List String)),
    applyFrames frs (.resolved ps) = .resolved ps
  | [], _ => rfl
  | _ :: rest, ps => applyFrames_resolved rest ps

/-- Backtracking: a dead end entering the enclosing levels resolves at
the first level whose following siblings yield a first-descendant set. -/
theorem applyFrames_exhausted : ∀ (frs : List Frame),
    applyFrames frs .exhausted = firstResolving frs
  | [] => rfl
  | fr :: rest => by
      show applyFrames rest (frameApply fr .exhausted) = _
      rw [firstResolving]
      show applyFrames rest (afterScan fr.1 fr.2.2) = _
      cases h : afterScan fr.1 fr.2.2 with
      | notFound => exact absurd h (afterScan_ne fr.1 fr.2.2)
      | exhausted => exact applyFrames_exhausted rest
      | resolved ps => exact applyFrames_resolved rest ps

/-- When the following siblings of every enclosing level are dead ends
the backtracking reaches the root with nothing left. -/
theorem firstResolving_all_exhausted : ∀ (frs : List Frame),
    (∀ fr ∈ frs, afterScan fr.1 fr.2.2 = .exhausted) → firstResolving frs = .exhausted
  | [], _ => rfl
  | fr :: rest, h => by
      rw [firstResolving, h fr (by simp)]
      exact firstResolving_all_exhausted rest (fun f hf => h f (by simp [hf]))

/-- The central decomposition: a search whose path identifies a
position inside `inner` computes the inner search result and hands it
through the enclosing levels, innermost first. -/
theorem descends_eq {t : Node} {path dirs : List String} {frs : List Frame}
    {inner : Node} {ipath idirs : List String}
    (h : Descends t path dirs frs inner ipath idirs) :
    findNextsHelper t path dirs = applyFrames frs (findNextsHelper inner ipath idirs) := by
  induction h with
  | refl t path dirs => rfl
  | seq pre x post path dirs frs inner ipath idirs hpath hpre hd ih =>
      obtain ⟨p, ps, rfl⟩ := List.exists_cons_of_ne_nil hpath
      rw [findNextsHelper, seqLoop_skip pre (x :: post) _ _ hpre, seqLoop,
        seqLoop_eq_frameApply, ih, applyFrames_append]
  | group ts p p2 ps dirs v frs inner ipath idirs hlk hd ih =>
      rw [findNextsHelper, groupLookup_eq_lookup, hlk]
      exact ih

/-- A search position with a non-empty remaining path comes from a
non-empty query path. -/
theorem descends_path_ne {t : Node} {path dirs : List String} {frs : List Frame}
    {inner : Node} {ipath idirs : List String}
    (h : Descends t path dirs frs inner ipath idirs) (hi : ipath ≠ []) : path ≠ [] := by
  induction h with
  | refl t path dirs => exact hi
  | seq _ _ _ _ _ _ _ _ _ hpath _ _ => exact hpath
  | group => simp

mutual

/-- Every path of a resolved first-descendant set extends the
breadcrumb it was computed with. -/
theorem getNexts_extends : ∀ (x : Node) (dirs q : List String),
    q ∈ resolvedPaths (getNexts x dirs) → ∃ rest, q = dirs ++ rest
  | .leaf s, dirs, q => by
      simp only [getNexts, resolvedPaths, List.mem_singleton]
      rintro rfl
      exact ⟨[s], rfl⟩
  | .seq [], dirs, q => by simp [getNexts, resolvedPaths]
  | .seq (x :: r), dirs, q => by
      rw [getNexts]
      exact getNexts_extends x dirs q
  | .group ts, dirs, q => by
      rw [getNexts]
      show q ∈ resolvedPaths (if getNextsTracks ts dirs = [] then .exhausted
        else .resolved (getNextsTracks ts dirs)) → _
      split
      · simp [resolvedPaths]
      · exact getNextsTracks_extends ts dirs q

/-- Every path contributed by the track scan extends the breadcrumb. -/
theorem getNextsTracks_extends : ∀ (ts : List (String × Node)) (dirs q : List String),
    q ∈ getNextsTracks ts dirs → ∃ rest, q = dirs ++ rest
  | [], dirs, q => by simp [getNextsTracks]
  | (k, v) :: rest, dirs, q => by
      rw [getNextsTracks]
      intro hq
      rcases List.mem_append.1 hq with h | h
      · obtain ⟨r, rfl⟩ := getNexts_extends v (dirs ++ [k]) q h
        exact ⟨k :: r, by simp⟩
      · exact getNextsTracks_extends rest dirs q h

end

mutual

/-- A search that does not report not-found has matched the path
against a leaf of the node. -/
theorem helper_matches : ∀ (x : Node) (path dirs : List String),
    findNextsHelper x path dirs ≠ .notFound → matchesLeaf x path = true
  | .leaf s, path, dirs, h => by
      simp only [findNextsHelper] at h
      by_cases hs : s = ""
      · simp [hs] at h
      · rw [if_neg hs] at h
        match path with
        | [] => simp at h
        | [p] =>
            rw [show matchesLeaf (Node.leaf s) [p] = (s == p) from rfl]
            by_cases hp : s = p
            · simp [hp]
            · simp [hp] at h
        | p :: p2 :: ps => simp at h
  | .seq l, [], dirs, h => by simp [findNextsHelper] at h
  | .seq l, p :: ps, dirs, h => by
      rw [findNextsHelper] at h
      have := seqLoop_matches l (p :: ps) dirs h
      simpa [matchesLeaf]
  | .group ts, [], dirs, h => by simp [findNextsHelper] at h
  | .group ts, [p], dirs, h => by simp [findNextsHelper] at h
  | .group ts, p :: p2 :: ps, dirs, h => by
      rw [findNextsHelper] at h
      have := groupLookup_matches ts p (p2 :: ps) (dirs ++ [p]) h
      simpa [matchesLeaf]

/-- A sibling loop that leaves the searching phase has matched the
path against a leaf of some element. -/
theorem seqLoop_matches : ∀ (l : List Node) (path dirs : List String),
    seqLoop l path dirs .notFound ≠ .notFound → matchesAny l path = true
  | [], path, dirs, h => by simp [seqLoop] at h
  | x :: rest, path, dirs, h => by
      rw [seqLoop] at h
      by_cases hx : findNextsHelper x path dirs = .notFound
      · rw [hx] at h
        simp [matchesAny, seqLoop_matches rest path dirs h]
      · simp [matchesAny, helper_matches x path dirs hx]

/-- A group scan that does not report not-found has matched the path
tail below the named track. -/
theorem groupLookup_matches : ∀ (ts : List (String × Node)) (p : String) (ps dirs : List String),
    groupLookup ts p ps dirs ≠ .notFound → matchesTrack ts p ps = true
  | [], p, ps, dirs, h => by simp [groupLookup] at h
  | (k, v) :: rest, p, ps, dirs, h => by
      rw [groupLookup] at h
      rw [matchesTrack]
      by_cases hk : k = p
      · rw [if_pos hk] at h ⊢
        exact helper_matches v ps dirs h
      · rw [if_neg hk] at h ⊢
        exact groupLookup_matches rest p ps dirs h

end

mutual

/-- Refinement: the code's `getNexts` computes exactly the
`firstDescendants` helper worded in the specification, the JS `true`
marker playing EMPTY. -/
theorem getNexts_spec : ∀ (x : Node) (dirs : List String),
    getNexts x dirs =
      match specFirstDescendants x dirs with
      | some ps => .resolved ps
      | none => .exhausted
  | .leaf s, dirs => by rw [getNexts, specFirstDescendants]
  | .seq [], dirs => by rw [getNexts, specFirstDescendants]
  | .seq (x :: r), dirs => by
      rw [getNexts, specFirstDescendants]
      exact getNexts_spec x dirs
  | .group ts, dirs => by
      rw [getNexts, specFirstDescendants]
      simp only [getNextsTracks_spec ts dirs]
      split <;> rfl

/-- The track scans of the code and of the specification agree. -/
theorem getNextsTracks_spec : ∀ (ts : List (String × Node)) (dirs : List String),
    getNextsTracks ts dirs = specFDTracks ts dirs
  | [], dirs => rfl
  | (k, v) :: rest, dirs => by
      rw [getNextsTracks, specFDTracks, getNextsTracks_spec rest dirs,
        getNexts_spec v (dirs ++ [k])]
      cases specFirstDescendants v (dirs ++ [k]) <;> rfl

end

mutual

/-- A node without leaves always signals the dead-end marker. -/
theorem noLeaf_exhausted : ∀ (x : Node) (dirs : List String),
    hasLeaf x = false → getNexts x dirs = .exhausted
  | .leaf s, dirs, h => by simp [hasLeaf] at h
  | .seq [], dirs, _ => rfl
  | .seq (x :: r), dirs, h => by
      rw [hasLeaf, hasLeafList, Bool.or_eq_false_iff] at h
      rw [getNexts]
      exact noLeaf_exhausted x dirs h.1
  | .group ts, dirs, h => by
      rw [hasLeaf] at h
      rw [getNexts, noLeafTracks_nil ts dirs h]
      rfl

/-- Tracks without leaves contribute no paths. -/
theorem noLeafTracks_nil : ∀ (ts : List (String × Node)) (dirs : List String),
    hasLeafTracks ts = false → getNextsTracks ts dirs = []
  | [], dirs, _ => rfl
  | (k, v) :: rest, dirs, h => by
      rw [hasLeafTracks, Bool.or_eq_false_iff] at h
      rw [getNextsTracks, noLeaf_exhausted v (dirs ++ [k]) h.1,
        noLeafTracks_nil rest dirs h.2]
      rfl

end

/-- The only node recognised as an empty track value is the empty
sequence. -/
theorem isEmptySeq_iff : ∀ (v : Node), isEmptySeq v = true → v = .seq []
  | .seq [], _ => rfl
  | .leaf _, h => by simp [isEmptySeq] at h
  | .seq (_ :: _), h => by simp [isEmptySeq] at h
  | .group _, h => by simp [isEmptySeq] at h

/-- Dropping empty tracks does not introduce a key. -/
theorem keyAbsent_prune : ∀ (p : String) (ts : List (String × Node)),
    keyAbsent p ts = true → keyAbsent p (pruneTracks ts) = true
  | _, [], _ => rfl
  | p, (k, v) :: r, h => by
      rw [keyAbsent, Bool.and_eq_true] at h
      rw [pruneTracks]
      by_cases hv : isEmptySeq v = true
      · rw [if_pos hv]
        exact keyAbsent_prune p r h.2
      · rw [if_neg hv, keyAbsent]
        simp [h.1, keyAbsent_prune p r h.2]

mutual

/-- The first-descendant computation does not see empty tracks: it
computes the same sentinel on the pruned node. -/
theorem prune_getNexts : ∀ (x : Node) (dirs : List String),
    getNexts (pruneEmpty x) dirs = getNexts x dirs
  | .leaf _, _ => rfl
  | .seq [], _ => rfl
  | .seq (x :: r), dirs => by
      rw [pruneEmpty, pruneList, getNexts, getNexts]
      exact prune_getNexts x dirs
  | .group ts, dirs => by
      rw [pruneEmpty, getNexts, getNexts, prune_getNextsTracks ts dirs]

/-- The track scan contributes the same paths after empty tracks are
dropped. -/
theorem prune_getNextsTracks : ∀ (ts : List (String × Node)) (dirs : List String),
    getNextsTracks (pruneTracks ts) dirs = getNextsTracks ts dirs
  | [], _ => rfl
  | (k, v) :: r, dirs => by
      rw [pruneTracks]
      by_cases hv : isEmptySeq v = true
      · rw [if_pos hv, prune_getNextsTracks r dirs, isEmptySeq_iff v hv]
        rw [getNextsTracks, getNexts]
        rfl
      · rw [if_neg hv, getNextsTracks, getNextsTracks,
          prune_getNexts v (dirs ++ [k]), prune_getNextsTracks r dirs]

end

mutual

/-- On a tree whose GroupSets have pairwise-distinct track names, the
search computes the same sentinel after every empty track is removed. -/
theorem prune_helper : ∀ (x : Node) (path dirs : List String), tracksWF x = true →
    findNextsHelper (pruneEmpty x) path dirs = findNextsHelper x path dirs
  | .leaf _, _, _, _ => rfl
  | .seq _, [], _, _ => rfl
  | .seq l, p :: ps, dirs, hwf => by
      rw [pruneEmpty, findNextsHelper, findNextsHelper]
      exact prune_seqLoop l (p :: ps) dirs .notFound (by rwa [tracksWF] at hwf)
  | .group _, [], _, _ => rfl
  | .group _, [_], _, _ => rfl
  | .group ts, p :: p2 :: ps, dirs, hwf => by
      rw [pruneEmpty, findNextsHelper, findNextsHelper]
      rw [tracksWF, Bool.and_eq_true] at hwf
      exact prune_groupLookup ts p (p2 :: ps) (dirs ++ [p]) hwf.1 hwf.2

/-- The sibling loop is unchanged by pruning, in every state. -/
theorem prune_seqLoop : ∀ (l : List Node) (path dirs : List String) (found : Found),
    tracksWFList l = true →
    seqLoop (pruneList l) path dirs found = seqLoop l path dirs found
  | [], _, _, _, _ => rfl
  | x :: r, path, dirs, found, hwf => by
      rw [tracksWFList, Bool.and_eq_true] at hwf
      rw [pruneList]
      cases found with
      | resolved ps => rw [seqLoop, seqLoop]
      | exhausted =>
          rw [seqLoop, seqLoop, prune_getNexts x dirs]
          exact prune_seqLoop r path dirs _ hwf.2
      | notFound =>
          rw [seqLoop, seqLoop, prune_helper x path dirs hwf.1]
          exact prune_seqLoop r path dirs _ hwf.2

/-- The group scan is unchanged by pruning: a searched-for empty track
reports not-found exactly as its absence does, because distinct keys
guarantee no second entry with the same name exists. -/
theorem prune_groupLookup : ∀ (ts : List (String × Node)) (p : String) (ps dirs : List String),
    nodupKeys ts = true → tracksWFTracks ts = true →
    groupLookup (pruneTracks ts) p ps dirs = groupLookup ts p ps dirs
  | [], _, _, _, _, _ => rfl
  | (k, v) :: r, p, ps, dirs, hnd, hwf => by
      rw [nodupKeys, Bool.and_eq_true] at hnd
      rw [tracksWFTracks, Bool.and_eq_true] at hwf
      rw [pruneTracks]
      by_cases hv : isEmptySeq v = true
      · rw [if_pos hv, groupLookup]
        by_cases hk : k = p
        · rw [if_pos hk, isEmptySeq_iff v hv]
          have habs : keyAbsent p r = true := hk ▸ hnd.1
          rw [groupLookup_absent (pruneTracks r) p ps dirs (keyAbsent_prune p r habs)]
          cases ps with
          | nil => rfl
          | cons a as => rw [findNextsHelper, seqLoop]
        · rw [if_neg hk]
          exact prune_groupLookup r p ps dirs hnd.2 hwf.2
      · rw [if_neg hv, groupLookup, groupLookup]
        by_cases hk : k = p
        · rw [if_pos hk, if_pos hk]
          exact prune_helper v ps dirs hwf.1
        · rw [if_neg hk, if_neg hk]
          exact prune_groupLookup r p ps dirs hnd.2 hwf.2

end

/-- Every node has nesting depth at least one. -/
theorem ndepth_pos : ∀ (x : Node), 1 ≤ ndepth x
  | .leaf _ => le_refl 1
  | .seq l => by rw [ndepth]; omega
  | .group ts => by rw [ndepth]; omega

mutual

/-- With at least the nesting depth of the node as fuel, the fuelled
first-descendant computation converges to the unfuelled one. -/
theorem getNextsF_eq : ∀ (x : Node) (fuel : Nat) (dirs : List String),
    ndepth x ≤ fuel → getNextsF fuel x dirs = some (getNexts x dirs)
  | .leaf s, fuel, dirs, h => by
      cases fuel with
      | zero => rw [ndepth] at h; omega
      | succ f => rfl
  | .seq [], fuel, dirs, h => by
      cases fuel with
      | zero => rw [ndepth, ldepth] at h; omega
      | succ f => rfl
  | .seq (x :: r), fuel, dirs, h => by
      rw [ndepth, ldepth] at h
      cases fuel with
      | zero => omega
      | succ f =>
          have hx : ndepth x ≤ f := by
            have := le_max_left (ndepth x) (ldepth r)
            omega
          rw [getNextsF, getNexts]
          exact getNextsF_eq x f dirs hx
  | .group ts, fuel, dirs, h => by
      rw [ndepth] at h
      cases fuel with
      | zero => omega
      | succ f =>
          have ht : tdepth ts ≤ f := by omega
          rw [getNextsF, getNextsTracksF_eq ts f dirs ht, getNexts]

/-- With at least the largest track depth as fuel, the fuelled track
scan converges to the unfuelled one. -/
theorem getNextsTracksF_eq : ∀ (ts : List (String × Node)) (fuel : Nat) (dirs : List String),
    tdepth ts ≤ fuel → getNextsTracksF fuel ts dirs = some (getNextsTracks ts dirs)
  | [], fuel, dirs, _ => rfl
  | (k, v) :: r, fuel, dirs, h => by
      rw [tdepth] at h
      have hv : ndepth v ≤ fuel := le_trans (le_max_left _ _) h
      have hr : tdepth r ≤ fuel := le_trans (le_max_right _ _) h
      rw [getNextsTracksF, getNextsF_eq v fuel (dirs ++ [k]) hv,
        getNextsTracksF_eq r fuel dirs hr, getNextsTracks]

end

mutual

/-- With at least the nesting depth of the node as fuel, the fuelled
search converges to the unfuelled one: the recursion depth of
`findNextsHelper` is bounded by the nesting depth of the tree. -/
theorem findNextsHelperF_eq : ∀ (x : Node) (fuel : Nat) (path dirs : List String),
    ndepth x ≤ fuel → findNextsHelperF fuel x path dirs = some (findNextsHelper x path dirs)
  | .leaf s, fuel, path, dirs, h => by
      cases fuel with
      | zero => rw [ndepth] at h; omega
      | succ f => rfl
  | .seq l, fuel, [], dirs, h => by
      cases fuel with
      | zero => rw [ndepth] at h; omega
      | succ f => rfl
  | .seq l, fuel, p :: ps, dirs, h => by
      rw [ndepth] at h
      cases fuel with
      | zero => omega
      | succ f =>
          rw [findNextsHelperF, findNextsHelper]
          exact seqLoopF_eq l f (p :: ps) dirs .notFound (by omega)
  | .group ts, fuel, [], dirs, h => by
      cases fuel with
      | zero => rw [ndepth] at h; omega
      | succ f => rfl
  | .group ts, fuel, [p], dirs, h => by
      cases fuel with
      | zero => rw [ndepth] at h; omega
      | succ f => rfl
  | .group ts, fuel, p :: p2 :: ps, dirs, h => by
      rw [ndepth] at h
      cases fuel with
      | zero => omega
      | succ f =>
          rw [findNextsHelperF, findNextsHelper]
          exact groupLookupF_eq ts f p (p2 :: ps) (dirs ++ [p]) (by omega)

/-- With at least the largest element depth as fuel, the fuelled
sibling loop converges to the unfuelled one. -/
theorem seqLoopF_eq : ∀ (l : List Node) (fuel : Nat) (path dirs : List String) (found : Found),
    ldepth l ≤ fuel → seqLoopF fuel l path dirs found = some (seqLoop l path dirs found)
  | [], fuel, path, dirs, found, _ => rfl
  | x :: r, fuel, path, dirs, found, h => by
      rw [ldepth] at h
      have hx : ndepth x ≤ fuel := le_trans (le_max_left _ _) h
      have hr : ldepth r ≤ fuel := le_trans (le_max_right _ _) h
      cases found with
      | resolved ps => rw [seqLoopF, seqLoop]
      | exhausted =>
          rw [seqLoopF, getNextsF_eq x fuel dirs hx, seqLoop]
          exact seqLoopF_eq r fuel path dirs _ hr
      | notFound =>
          rw [seqLoopF, findNextsHelperF_eq x fuel path dirs hx, seqLoop]
          exact seqLoopF_eq r fuel path dirs _ hr

/-- With at least the largest track depth as fuel, the fuelled group
scan converges to the unfuelled one. -/
theorem groupLookupF_eq : ∀ (ts : List (String × Node)) (fuel : Nat) (p : String)
    (ps dirs : List String), tdepth ts ≤ fuel →
    groupLookupF fuel ts p ps dirs = some (groupLookup ts p ps dirs)
  | [], fuel, p, ps, dirs, _ => rfl
  | (k, v) :: r, fuel, p, ps, dirs, h => by
      rw [tdepth] at h
      have hv : ndepth v ≤ fuel := le_trans (le_max_left _ _) h
      have hr : tdepth r ≤ fuel := le_trans (le_max_right _ _) h
      rw [groupLookupF, groupLookup]
      by_cases hk : k = p
      · rw [if_pos hk, if_pos hk]
        exact findNextsHelperF_eq v fuel ps dirs hv
      · rw [if_neg hk, if_neg hk]
        exact groupLookupF_eq r fuel p ps dirs hr

end

/-- The track scan is the declaration-order concatenation of the
per-track resolved first-descendant sets. -/
theorem tracks_flatten : ∀ (ts : List (String × Node)) (dirs : List String),
    getNextsTracks ts dirs
      = (ts.map (fun kv => resolvedPaths (getNexts kv.2 (dirs ++ [kv.1])))).flatten
  | [], _ => rfl
  | (k, v) :: r, dirs => by
      rw [getNextsTracks, List.map_cons, List.flatten_cons, tracks_flatten r dirs]

/-- Every path contributed by the track scan starts with the
breadcrumb followed by the name of the track it came from. -/
theorem tracks_member : ∀ (ts : List (String × Node)) (dirs q : List String),
    q ∈ getNextsTracks ts dirs → ∃ kv, kv ∈ ts ∧ ∃ rest, q = dirs ++ [kv.1] ++ rest
  | [], _, _ => by simp [getNextsTracks]
  | (k, v) :: r, dirs, q => by
      rw [getNextsTracks]
      intro hq
      rcases List.mem_append.1 hq with h | h
      · obtain ⟨rest, hrest⟩ := getNexts_extends v (dirs ++ [k]) q h
        exact ⟨(k, v), by simp, rest, by simpa using hrest⟩
      · obtain ⟨kv, hkv, rest, hrest⟩ := tracks_member r dirs q h
        exact ⟨kv, by simp [hkv], rest, hrest⟩

/-- Claim C1: for a leaf that is not the last element of its enclosing
sequence — `Descends` pins down "the path identifies the leaf": at
every traversed level all earlier siblings report not-found and group
tracks are entered by name — and whose immediately following element
has a resolved first-descendant set, `findNexts` returns exactly that
set, each resolved path extending the breadcrumb of track names
leading to the enclosing sequence. -/
theorem claim1_next_sibling (t : Node) (path : List String) (frs : List Frame)
    (pre post : List Node) (y : Node) (p : String) (dirs : List String)
    (qs : List (List String))
    (hp : p ≠ "")
    (hd : Descends t path [] frs (.seq (pre ++ .leaf p :: y :: post)) [p] dirs)
    (hpre : ∀ z ∈ pre, findNextsHelper z [p] dirs = .notFound)
    (hy : getNexts y dirs = .resolved qs) :
    findNexts t path = qs ∧ ∀ q ∈ qs, ∃ rest, q = dirs ++ rest := by
  have hpath : path ≠ [] := descends_path_ne hd (by simp)
  have hleaf : findNextsHelper (.leaf p) [p] dirs = .exhausted := by
    simp [findNextsHelper, hp]
  have hinner : findNextsHelper (.seq (pre ++ .leaf p :: y :: post)) [p] dirs
      = .resolved qs := by
    rw [findNextsHelper, seqLoop_skip pre _ _ _ hpre, seqLoop, hleaf, seqLoop, hy,
      seqLoop_resolved]
  constructor
  · rw [findNexts, if_neg hpath, descends_eq hd, hinner, applyFrames_resolved]
    rfl
  · intro q hq
    exact getNexts_extends y dirs q (by rw [hy]; exact hq)

/-- Witness for C1 on the basic test tree: the leaf index.js inside
the src track is followed by utils.js, so the resolver returns the
single path src/utils.js. -/
theorem claim1_witness :
    findNexts (.seq basicTree) ["src", "index.js"] = [["src", "utils.js"]] := by
  have h0 : Descends (.seq [.leaf "index.js", .leaf "utils.js"]) ["index.js"] ["src"] []
      (.seq [.leaf "index.js", .leaf "utils.js"]) ["index.js"] ["src"] :=
    Descends.refl _ _ _
  have h1 : Descends (.group [("src", .seq [.leaf "index.js", .leaf "utils.js"])])
      ["src", "index.js"] [] []
      (.seq [.leaf "index.js", .leaf "utils.js"]) ["index.js"] ["src"] :=
    Descends.group _ "src" "index.js" [] [] _ [] _ _ _ rfl h0
  have hd : Descends (.seq basicTree) ["src", "index.js"] []
      [([.leaf "readme.md"], ["src", "index.js"], [])]
      (.seq [.leaf "index.js", .leaf "utils.js"]) ["index.js"] ["src"] :=
    Descends.seq [.leaf "config.js"] _ [.leaf "readme.md"] _ _ [] _ _ _
      (by decide) (by decide) h1
  exact (claim1_next_sibling (.seq basicTree) ["src", "index.js"]
    [([.leaf "readme.md"], ["src", "index.js"], [])]
    [] [] (.leaf "utils.js") "index.js" ["src"] [["src", "utils.js"]]
    (by decide) hd (by decide) (by decide)).1

/-- Claim C2: for a leaf that IS the last element of its enclosing
sequence, resolution backtracks: the result is the first-descendant
set produced at the nearest enclosing level whose following siblings
yield one (`firstResolving` scans the levels innermost first, probing
the siblings after the descended element with that level's
breadcrumb), and the empty list when no enclosing level up to the
root yields one. -/
theorem claim2_backtrack (t : Node) (path : List String) (frs : List Frame)
    (pre : List Node) (p : String) (dirs : List String)
    (hp : p ≠ "")
    (hd : Descends t path [] frs (.seq (pre ++ [.leaf p])) [p] dirs)
    (hpre : ∀ z ∈ pre, findNextsHelper z [p] dirs = .notFound) :
    findNexts t path = resolvedPaths (firstResolving frs)
      ∧ ((∀ fr ∈ frs, afterScan fr.1 fr.2.2 = .exhausted) → findNexts t path = []) := by
  have hpath : path ≠ [] := descends_path_ne hd (by simp)
  have hleaf : findNextsHelper (.leaf p) [p] dirs = .exhausted := by
    simp [findNextsHelper, hp]
  have hinner : findNextsHelper (.seq (pre ++ [.leaf p])) [p] dirs = .exhausted := by
    rw [findNextsHelper, seqLoop_skip pre _ _ _ hpre, seqLoop, hleaf, seqLoop]
  have hmain : findNexts t path = resolvedPaths (firstResolving frs) := by
    rw [findNexts, if_neg hpath, descends_eq hd, hinner, applyFrames_exhausted]
  refine ⟨hmain, fun hall => ?_⟩
  rw [hmain, firstResolving_all_exhausted frs hall]
  rfl

/-- Witness for C2 on the basic test tree: utils.js is the last leaf
of the src track, and backtracking reaches readme.md at the root
level. -/
theorem claim2_witness :
    findNexts (.seq basicTree) ["src", "utils.js"] = [["readme.md"]] := by
  have h0 : Descends (.seq [.leaf "index.js", .leaf "utils.js"]) ["utils.js"] ["src"] []
      (.seq [.leaf "index.js", .leaf "utils.js"]) ["utils.js"] ["src"] :=
    Descends.refl _ _ _
  have h1 : Descends (.group [("src", .seq [.leaf "index.js", .leaf "utils.js"])])
      ["src", "utils.js"] [] []
      (.seq [.leaf "index.js", .leaf "utils.js"]) ["utils.js"] ["src"] :=
    Descends.group _ "src" "utils.js" [] [] _ [] _ _ _ rfl h0
  have hd : Descends (.seq basicTree) ["src", "utils.js"] []
      [([.leaf "readme.md"], ["src", "utils.js"], [])]
      (.seq [.leaf "index.js", .leaf "utils.js"]) ["utils.js"] ["src"] :=
    Descends.seq [.leaf "config.js"] _ [.leaf "readme.md"] _ _ [] _ _ _
      (by decide) (by decide) h1
  have h := claim2_backtrack (.seq basicTree) ["src", "utils.js"]
    [([.leaf "readme.md"], ["src", "utils.js"], [])]
    [.leaf "index.js"] "utils.js" ["src"]
    (by decide) hd (by decide)
  rw [h.1]
  decide

/-- Claim C3: on the empty path the resolver returns exactly the
specification's firstDescendants of the whole tree — the leftmost
reachable leaf, or the fan-out of leftmost leaves over the tracks of a
leading GroupSet — and the empty list when the tree has no leaves. -/
theorem claim3_empty_path (t : List Node) :
    resolveNext t [] = (specFirstDescendants (.seq t) []).getD []
      ∧ (hasLeafList t = false → resolveNext t [] = []) := by
  constructor
  · show resolvedPaths (getNexts (.seq t) []) = _
    rw [getNexts_spec (.seq t) []]
    cases specFirstDescendants (.seq t) [] <;> rfl
  · intro h
    show resolvedPaths (getNexts (.seq t) []) = _
    rw [noLeaf_exhausted (.seq t) [] (by rwa [hasLeaf])]
    rfl

/-- Witness for C3: the basic tree resolves the empty path to its
leftmost leaf, and a tree with no leaves resolves it to nothing. -/
theorem claim3_witness :
    resolveNext basicTree [] = (specFirstDescendants (.seq basicTree) []).getD []
      ∧ resolveNext noLeafTree [] = [] :=
  ⟨(claim3_empty_path basicTree).1, (claim3_empty_path noLeafTree).2 (by decide)⟩

/-- Claim C4: a track with zero children contributes nothing and does
not terminate resolution — on a tree whose GroupSets have distinct
track names (as JS objects guarantee), removing every empty track
changes no result, on every path, during first-descendant computation
and during backtracking alike. -/
theorem claim4_empty_tracks (t : List Node) (path : List String)
    (hwf : tracksWFList t = true) :
    resolveNext (pruneList t) path = resolveNext t path := by
  rw [resolveNext, resolveNext, findNexts, findNexts,
    show Node.seq (pruneList t) = pruneEmpty (.seq t) from rfl]
  by_cases h : path = []
  · rw [if_pos h, if_pos h, prune_getNexts]
  · rw [if_neg h, if_neg h, prune_helper (.seq t) path [] (by rwa [tracksWF])]

/-- Witness for C4 on the emptyDirs test tree: with the empty track
removed the resolver answers the same, and the answer skips over the
empty group to file2.js. -/
theorem claim4_witness :
    resolveNext (pruneList emptyDirsTree) ["file1.js"] = resolveNext emptyDirsTree ["file1.js"]
      ∧ resolveNext emptyDirsTree ["file1.js"] = [["file2.js"]] :=
  ⟨claim4_empty_tracks emptyDirsTree ["file1.js"] (by decide), by decide⟩

/-- Claim C5 as frozen is refuted: a GroupSet with exactly one track
can produce two ResolvedPaths, because a track whose first element is
a nested GroupSet fans out further, so "one ResolvedPath per track"
fails.  Here claim5Group has one track and the resolver returns two
paths. -/
theorem claim5_counterexample :
    resolveNext claim5Tree ["p.js"] = [["a", "b", "x.js"], ["a", "c", "y.js"]]
      ∧ claim5Group.length = 1
      ∧ (resolveNext claim5Tree ["p.js"]).length = 2 := by decide

/-- Claim C5 amended: when first descendants are computed for a
GroupSet, every track is descended into and the result is the
declaration-order concatenation of each track's resolved
first-descendant set (tracks yielding only dead ends contribute
nothing), each path prefixed with the breadcrumb followed by the name
of its track; no reordering is applied. -/
theorem claim5_fan_out (ts : List (String × Node)) (dirs : List String) :
    (getNexts (.group ts) dirs =
        if getNextsTracks ts dirs = [] then .exhausted
        else .resolved (getNextsTracks ts dirs))
      ∧ getNextsTracks ts dirs
          = (ts.map (fun kv => resolvedPaths (getNexts kv.2 (dirs ++ [kv.1])))).flatten
      ∧ ∀ q ∈ getNextsTracks ts dirs, ∃ kv, kv ∈ ts ∧ ∃ rest, q = dirs ++ [kv.1] ++ rest :=
  ⟨rfl, tracks_flatten ts dirs, tracks_member ts dirs⟩

/-- Witness for the amended C5 on a track list with a dead track in
the middle: the dead track contributes nothing, order is declaration
order, and a returned path carries its track's name after the
breadcrumb. -/
theorem claim5_witness :
    getNextsTracks claim5WTracks [] = [["a", "x"], ["b", "y"]]
      ∧ (∃ kv, kv ∈ claim5WTracks ∧ ∃ rest, ["a", "x"] = [] ++ [kv.1] ++ rest) := by
  refine ⟨by decide, ?_⟩
  exact (claim5_fan_out claim5WTracks []).2.2 ["a", "x"] (by decide)

/-- Claim C6: the five concrete scenarios of the specification on the
basic tree config.js / src(index.js, utils.js) / readme.md. -/
theorem claim6_concrete_scenarios :
    resolveNext basicTree ["config.js"] = [["src", "index.js"]]
      ∧ resolveNext basicTree ["src", "index.js"] = [["src", "utils.js"]]
      ∧ resolveNext basicTree ["src", "utils.js"] = [["readme.md"]]
      ∧ resolveNext basicTree ["readme.md"] = []
      ∧ resolveNext basicTree [] = [["config.js"]] := by decide

/-- Claim C7: a non-empty path that names no leaf anywhere in the tree
(including every shape mismatch: a component naming a track where the
node is a leaf, or naming a leaf where the node is a GroupSet) makes
the resolver return the empty list; `findNexts` is a total function,
so no error is raised. -/
theorem claim7_no_match (t : List Node) (path : List String)
    (hne : path ≠ []) (hm : matchesLeaf (.seq t) path = false) :
    resolveNext t path = [] := by
  rw [resolveNext, findNexts, if_neg hne]
  cases h : findNextsHelper (.seq t) path [] with
  | notFound => rfl
  | exhausted => rfl
  | resolved ps =>
      have := helper_matches (.seq t) path [] (by rw [h]; simp)
      rw [hm] at this
      cases this

/-- Witness for C7: missing.js names no leaf of the basic tree and the
resolver returns nothing. -/
theorem claim7_witness :
    matchesLeaf (.seq basicTree) ["missing.js"] = false
      ∧ resolveNext basicTree ["missing.js"] = [] :=
  ⟨by decide, claim7_no_match basicTree ["missing.js"] (by decide) (by decide)⟩

/-- Claim C8 as frozen is refuted: the identifier joins the configured
prefix to the breadcrumb with a dash, not with the underscore the
claim states (the underscore only joins the breadcrumb components to
each other): with prefix next_page and breadcrumb src the code builds
next_page-src, not next_page_src. -/
theorem claim8_counterexample :
    formatIds "next_page" "shared" [["src", "index.js"], ["a.js"]]
        = ["next_page-src", "next_page-shared"]
      ∧ "next_page-src" ≠ "next_page_src" := by decide

/-- Claim C8 amended: for each resolved path the formatter drops the
trailing leaf component to get the breadcrumb, substitutes the
configured default track name when the breadcrumb is empty, and joins
the configured prefix to the breadcrumb with a dash, the breadcrumb
components joined by underscores; when exactly one path was resolved
the identifier collapses to the bare prefix. -/
theorem claim8_formatter (pr sh : String) (nexts : List (List String)) :
    (nexts.length ≠ 1 → formatIds pr sh nexts
        = nexts.map (fun cs =>
            pr ++ "-" ++ String.intercalate "_" (if cs.dropLast = [] then [sh] else cs.dropLast)))
      ∧ (∀ cs, nexts = [cs] → formatIds pr sh nexts = [pr]) := by
  constructor
  · intro h
    show (if nexts.length = 1 then [pr] else nexts.map (formatId pr sh)) = _
    rw [if_neg h]
    rfl
  · intro cs hcs
    subst hcs
    show (if [cs].length = 1 then [pr] else [cs].map (formatId pr sh)) = [pr]
    rfl

/-- Witness for the amended C8: two resolved paths get dash-joined
identifiers, one resolved path gets the bare prefix. -/
theorem claim8_witness :
    formatIds "p" "sh" [["a", "x"], ["b", "y"]] = ["p-a", "p-b"]
      ∧ formatIds "p" "sh" [["a", "x"]] = ["p"] := by
  constructor
  · rw [(claim8_formatter "p" "sh" [["a", "x"], ["b", "y"]]).1 (by decide)]
    decide
  · exact (claim8_formatter "p" "sh" [["a", "x"]]).2 ["a", "x"] rfl

/-- Claim C9: resolution terminates with recursion depth bounded by
the nesting depth of the tree: the fuelled resolver, which spends one
unit of fuel per node descent and none per sibling or track
iteration, converges to the total `resolveNext` whenever the fuel is
at least the tree's nesting depth; no iteration limit is needed. -/
theorem claim9_bounded_depth (t : List Node) (path : List String) (fuel : Nat)
    (h : ndepth (.seq t) ≤ fuel) :
    findNextsF fuel (.seq t) path = some (resolveNext t path) := by
  rw [findNextsF, resolveNext, findNexts]
  by_cases hp : path = []
  · rw [if_pos hp, if_pos hp, getNextsF_eq (.seq t) fuel [] h]
    rfl
  · rw [if_neg hp, if_neg hp, findNextsHelperF_eq (.seq t) fuel path [] h]
    rfl

/-- Witness for C9: the basic tree has nesting depth four, and with
four units of fuel the fuelled resolver answers. -/
theorem claim9_witness :
    ndepth (.seq basicTree) ≤ 4
      ∧ findNextsF 4 (.seq basicTree) ["config.js"] = some [["src", "index.js"]] := by
  refine ⟨by decide, ?_⟩
  rw [claim9_bounded_depth basicTree ["config.js"] 4 (by decide)]
  decide

/-- Claim C10: within a sequence, document order decides: the first
element whose search does not report not-found determines the result
— a resolved set is returned with the remaining elements never
consulted, a found-but-exhausted report switches the remaining
elements to first-descendant probing only, and only a not-found
report lets the search continue into later elements (where a later
occurrence of the same names could be consulted). -/
theorem claim10_document_order (pre : List Node) (x : Node) (post : List Node)
    (path dirs : List String) (hpath : path ≠ [])
    (hpre : ∀ y ∈ pre, findNextsHelper y path dirs = .notFound) :
    findNextsHelper (.seq (pre ++ x :: post)) path dirs =
      match findNextsHelper x path dirs with
      | .resolved ps => .resolved ps
      | .exhausted => afterScan post dirs
      | .notFound => findNextsHelper (.seq post) path dirs := by
  obtain ⟨p, ps, rfl⟩ := List.exists_cons_of_ne_nil hpath
  rw [findNextsHelper, seqLoop_skip pre (x :: post) _ _ hpre, seqLoop]
  cases h : findNextsHelper x (p :: ps) dirs with
  | resolved qs => rw [seqLoop_resolved]
  | exhausted => rw [seqLoop_exhausted]
  | notFound => rw [findNextsHelper]

/-- Witness for C10 on the tripleDir test tree: the first same-named
group reports not-found for same/b.js, the second resolves it, and
the result is the next sibling inside the second group. -/
theorem claim10_witness :
    findNextsHelper (.seq tripleSameTree) ["same", "b.js"] [] =
      .resolved [["same", "c.js"]] := by
  have h := claim10_document_order
    [.group [("same", .seq [.leaf "a.js"])], .leaf "middle.js"]
    (.group [("same", .seq [.leaf "b.js", .leaf "c.js"])])
    [.leaf "end.js", .group [("same", .seq [.leaf "d.js"])]]
    ["same", "b.js"] [] (by decide) (by decide)
  rw [show Node.seq tripleSameTree
      = Node.seq ([.group [("same", .seq [.leaf "a.js"])], .leaf "middle.js"]
          ++ (Node.group [("same", .seq [.leaf "b.js", .leaf "c.js"])])
            :: [.leaf "end.js", .group [("same", .seq [.leaf "d.js"])]]) from rfl, h]
  decide
